import Mathlib

/-!
Shallow embedding of `src/apollon/signal/correlogram.c` (repository
bader28/apollon) and proofs about it.

The C code works on `double` buffers; we idealise `double` as `ℝ` and a
buffer as a total function `ℕ → ℝ` (the module never bounds-checks, the
caller guarantees all reads are in bounds).  The output matrix `cgram` is
likewise a function `ℕ → ℝ` which the builders update cell by cell; a
builder returns its C `int` status code (`1` success, `0` failure)
together with the final state of the output buffer.
-/

namespace Apollon

noncomputable section

open Finset

/-- Accumulated sum `s_x` (resp. `s_y`) of the window of length `n`
starting at `off`: in the C loop, `s_x += data[i]` for
`i = off_x, …, off_x + n - 1`. -/
def s_sum (data : ℕ → ℝ) (off n : ℕ) : ℝ :=
  ∑ i ∈ range n, data (off + i)

/-- Accumulated sum `s_xy` of pairwise products: `s_xy += data[i] * data[j]`
with `i` running over the first window and `j` over the second. -/
def s_xy (data : ℕ → ℝ) (off_x off_y n : ℕ) : ℝ :=
  ∑ i ∈ range n, data (off_x + i) * data (off_y + i)

/-- Accumulated sum `s_sq_x` (resp. `s_sq_y`) of squares:
`s_sq_x += xi * xi`. -/
def s_sq (data : ℕ → ℝ) (off n : ℕ) : ℝ :=
  ∑ i ∈ range n, data (off + i) * data (off + i)

/-- The covariance-like term of `corrcoef`: `cov = s_xy - s_x * s_y / n`. -/
def cov (data : ℕ → ℝ) (off_x off_y n : ℕ) : ℝ :=
  s_xy data off_x off_y n - s_sum data off_x n * s_sum data off_y n / n

/-- The mean-square term of `corrcoef`: `ms_x = s_x * s_x / n`. -/
def ms (data : ℕ → ℝ) (off n : ℕ) : ℝ :=
  s_sum data off n * s_sum data off n / n

/-- The product of standard deviations of `corrcoef`:
`p_std = sqrt (s_sq_x - ms_x) * sqrt (s_sq_y - ms_y)`. -/
def p_std (data : ℕ → ℝ) (off_x off_y n : ℕ) : ℝ :=
  Real.sqrt (s_sq data off_x n - ms data off_x n) *
    Real.sqrt (s_sq data off_y n - ms data off_y n)

/-- Embedding of `corrcoef` from `correlogram.c`: one pass accumulates the
five sums over the paired windows, then
`cov = s_xy - s_x*s_y/n`, `ms_x = s_x*s_x/n`, `ms_y = s_y*s_y/n`,
`p_std = sqrt(s_sq_x - ms_x) * sqrt(s_sq_y - ms_y)`; if `p_std == 0` the
function returns the sentinel `-2`, otherwise `cov / p_std`. -/
def corrcoef (data : ℕ → ℝ) (off_x off_y n : ℕ) : ℝ :=
  if p_std data off_x off_y n = 0 then -2
  else cov data off_x off_y n / p_std data off_x off_y n

/-- The nonlinearity both builders apply to a coefficient before storing
it: `r > 0.0F ? pow(r, 4) : 0.0F`. -/
def transform (r : ℝ) : ℝ :=
  if 0 < r then r ^ 4 else 0

/-- Inner loop shared by both builders of `correlogram.c`: for each window
start `t` in the list, compute `r = corrcoef (sig, t, t + d, wlen)`;
if `r == -2` stop and return code `0` with the buffer as written so far,
otherwise store `transform r` at index `row * d1 + t` and continue; code
`1` when the whole list is processed.  In `correlogram_delay` the row
index `row` is the loop counter `i` and `d = delays[i]`; in `correlogram`
the row index is `delay - 1` and `d = delay`. -/
def fillRow (sig : ℕ → ℝ) (wlen d1 row d : ℕ) :
    List ℕ → (ℕ → ℝ) → ℕ × (ℕ → ℝ)
  | [], cg => (1, cg)
  | t :: ts, cg =>
    let r := corrcoef sig t (t + d) wlen
    if r = -2 then (0, cg)
    else fillRow sig wlen d1 row d ts
      (Function.update cg (row * d1 + t) (transform r))

/-- Outer loop of `correlogram_delay`: iterate the row indices `i`, fill
row `i` with delay `delays i`; on inner failure return `0` immediately
with the partially written buffer. -/
def fillRows (sig : ℕ → ℝ) (delays : ℕ → ℕ) (wlen d1 : ℕ) :
    List ℕ → (ℕ → ℝ) → ℕ × (ℕ → ℝ)
  | [], cg => (1, cg)
  | i :: is, cg =>
    let res := fillRow sig wlen d1 i (delays i) (List.range d1) cg
    if res.1 = 0 then (0, res.2) else fillRows sig delays wlen d1 is res.2

/-- Outer loop of `correlogram`: iterate the delays `d` of the list, fill
row `d - 1` with delay `d`; on inner failure return `0` immediately. -/
def fillRangeRows (sig : ℕ → ℝ) (wlen d1 : ℕ) :
    List ℕ → (ℕ → ℝ) → ℕ × (ℕ → ℝ)
  | [], cg => (1, cg)
  | d :: ds, cg =>
    let res := fillRow sig wlen d1 (d - 1) d (List.range d1) cg
    if res.1 = 0 then (0, res.2) else fillRangeRows sig wlen d1 ds res.2

/-- Embedding of `correlogram_delay` from `correlogram.c`: for
`i = 0, …, dims[0]-1` and `t = 0, …, dims[1]-1` store
`transform (corrcoef (sig, t, t + delays[i], wlen))` at
`cgram[i*dims[1] + t]`, aborting with code `0` on the first sentinel;
code `1` otherwise. -/
def correlogram_delay (sig : ℕ → ℝ) (delays : ℕ → ℕ) (wlen : ℕ)
    (dims : ℕ × ℕ) (cgram : ℕ → ℝ) : ℕ × (ℕ → ℝ) :=
  fillRows sig delays wlen dims.2 (List.range dims.1) cgram

/-- Embedding of `correlogram` from `correlogram.c`: for
`delay = 1, …, dims[0]-1` and `off = 0, …, dims[1]-1` store
`transform (corrcoef (sig, off, off + delay, wlen))` at
`cgram[(delay-1)*dims[1] + off]`, aborting with code `0` on the first
sentinel; code `1` otherwise. -/
def correlogram (sig : ℕ → ℝ) (wlen : ℕ)
    (dims : ℕ × ℕ) (cgram : ℕ → ℝ) : ℕ × (ℕ → ℝ) :=
  fillRangeRows sig wlen dims.2 (List.range' 1 (dims.1 - 1)) cgram

/-- Pearson correlation coefficient of the two length-`n` windows, stated
the textbook way (mean-centred), used as the specification side of the
refinement claim about `corrcoef`. -/
def pearson (x y : ℕ → ℝ) (n : ℕ) : ℝ :=
  (∑ i ∈ range n, (x i - (∑ j ∈ range n, x j) / n) *
      (y i - (∑ j ∈ range n, y j) / n)) /
    (Real.sqrt (∑ i ∈ range n, (x i - (∑ j ∈ range n, x j) / n) ^ 2) *
      Real.sqrt (∑ i ∈ range n, (y i - (∑ j ∈ range n, y j) / n) ^ 2))

/-! ### Algebraic facts about `corrcoef` -/

/-- The sum of squares of a window equals the pair-product sum of the
window against itself, and consequently the variance-like term is the
self-covariance. -/
lemma var_eq_cov (data : ℕ → ℝ) (off n : ℕ) :
    s_sq data off n - ms data off n = cov data off off n := rfl

/-- Expanding a mean-centred pair-product sum into the accumulated sums;
the workhorse behind the single-pass Pearson identities. -/
lemma centered_expand (x y : ℕ → ℝ) (n : ℕ) (hn : (n : ℝ) ≠ 0) :
    ∑ i ∈ range n,
        (x i - (∑ j ∈ range n, x j) / n) * (y i - (∑ j ∈ range n, y j) / n) =
      ∑ i ∈ range n, x i * y i -
        (∑ j ∈ range n, x j) * (∑ j ∈ range n, y j) / n := by
  set A := ∑ j ∈ range n, x j with hA
  set B := ∑ j ∈ range n, y j with hB
  have h : ∀ i ∈ range n, (x i - A / n) * (y i - B / n)
      = x i * y i - B / n * x i - A / n * y i + A / n * (B / n) :=
    fun i _ => by ring
  rw [Finset.sum_congr rfl h]
  simp only [Finset.sum_add_distrib, Finset.sum_sub_distrib, ← Finset.mul_sum,
    ← hA, ← hB, Finset.sum_const, card_range, nsmul_eq_mul]
  field_simp
  ring

/-- Rewriting the covariance-like term as a mean-centred sum. -/
lemma cov_eq_centered (data : ℕ → ℝ) (ox oy n : ℕ) (hn : (n : ℝ) ≠ 0) :
    cov data ox oy n =
      ∑ i ∈ range n,
        (data (ox + i) - s_sum data ox n / n) *
          (data (oy + i) - s_sum data oy n / n) :=
  (centered_expand (fun i => data (ox + i)) (fun i => data (oy + i)) n hn).symm

/-- Rewriting the variance-like term as a mean-centred sum of squares. -/
lemma var_eq_centered (data : ℕ → ℝ) (off n : ℕ) (hn : (n : ℝ) ≠ 0) :
    s_sq data off n - ms data off n =
      ∑ i ∈ range n, (data (off + i) - s_sum data off n / n) ^ 2 := by
  rw [var_eq_cov, cov_eq_centered data off off n hn]
  refine Finset.sum_congr rfl fun i _ => by ring

/-- The variance-like term `s_sq - ms` is nonnegative. -/
lemma var_nonneg (data : ℕ → ℝ) (off n : ℕ) :
    0 ≤ s_sq data off n - ms data off n := by
  rcases Nat.eq_zero_or_pos n with h0 | hpos
  · subst h0
    simp [s_sq, ms, s_sum]
  · have hn : (n : ℝ) ≠ 0 := Nat.cast_ne_zero.mpr hpos.ne'
    rw [var_eq_centered data off n hn]
    exact Finset.sum_nonneg fun i _ => sq_nonneg _

/-- Cauchy–Schwarz for the accumulated sums: the square of the
covariance-like term is at most the product of the variance-like terms. -/
lemma cov_sq_le (data : ℕ → ℝ) (ox oy n : ℕ) (hn : (n : ℝ) ≠ 0) :
    cov data ox oy n ^ 2 ≤
      (s_sq data ox n - ms data ox n) * (s_sq data oy n - ms data oy n) := by
  rw [cov_eq_centered data ox oy n hn, var_eq_centered data ox n hn,
    var_eq_centered data oy n hn]
  exact Finset.sum_mul_sq_le_sq_mul_sq _ _ _

/-- The product of standard deviations is nonnegative. -/
lemma p_std_nonneg (data : ℕ → ℝ) (ox oy n : ℕ) :
    0 ≤ p_std data ox oy n :=
  mul_nonneg (Real.sqrt_nonneg _) (Real.sqrt_nonneg _)

/-- The absolute value of the covariance-like term is bounded by the
product of standard deviations. -/
lemma abs_cov_le (data : ℕ → ℝ) (ox oy n : ℕ) (hn : (n : ℝ) ≠ 0) :
    |cov data ox oy n| ≤ p_std data ox oy n := by
  have h1 := cov_sq_le data ox oy n hn
  have hx := var_nonneg data ox n
  have hy := var_nonneg data oy n
  have h2 : p_std data ox oy n =
      Real.sqrt ((s_sq data ox n - ms data ox n) *
        (s_sq data oy n - ms data oy n)) := by
    unfold p_std
    exact (Real.sqrt_mul hx _).symm
  rw [h2, ← Real.sqrt_sq_eq_abs]
  exact Real.sqrt_le_sqrt h1

/-- When the product of standard deviations does not vanish, the quotient
`cov / p_std` lies in the interval `[-1, 1]`. -/
lemma quotient_bounds (data : ℕ → ℝ) (ox oy n : ℕ) (hn : (n : ℝ) ≠ 0)
    (hp : p_std data ox oy n ≠ 0) :
    -1 ≤ cov data ox oy n / p_std data ox oy n ∧
      cov data ox oy n / p_std data ox oy n ≤ 1 := by
  have hpos : 0 < p_std data ox oy n :=
    lt_of_le_of_ne (p_std_nonneg data ox oy n) (Ne.symm hp)
  have habs := abs_cov_le data ox oy n hn
  rw [abs_le] at habs
  constructor
  · rw [le_div_iff₀ hpos]
    linarith [habs.1]
  · rw [div_le_one hpos]
    exact habs.2

/-- With window length `0` every accumulated sum vanishes and so does
`p_std`. -/
lemma p_std_n_zero (data : ℕ → ℝ) (ox oy : ℕ) : p_std data ox oy 0 = 0 := by
  simp [p_std, s_sq, ms, s_sum]

/-- A nonvanishing `p_std` forces a positive window length. -/
lemma cast_ne_zero_of_p_std_ne_zero {data : ℕ → ℝ} {ox oy n : ℕ}
    (hp : p_std data ox oy n ≠ 0) : (n : ℝ) ≠ 0 := by
  intro h
  have h0 : n = 0 := Nat.cast_eq_zero.mp h
  subst h0
  exact hp (p_std_n_zero data ox oy)

/-- The non-degenerate branch of `corrcoef`. -/
lemma corrcoef_of_p_std_ne_zero (data : ℕ → ℝ) (ox oy n : ℕ)
    (hp : p_std data ox oy n ≠ 0) :
    corrcoef data ox oy n = cov data ox oy n / p_std data ox oy n := by
  unfold corrcoef
  exact if_neg hp

/-- The degenerate branch of `corrcoef`. -/
lemma corrcoef_of_p_std_eq_zero (data : ℕ → ℝ) (ox oy n : ℕ)
    (hp : p_std data ox oy n = 0) :
    corrcoef data ox oy n = -2 := by
  unfold corrcoef
  exact if_pos hp

/-- On a non-degenerate pair of windows the coefficient lies in
`[-1, 1]`. -/
lemma corrcoef_bounds (data : ℕ → ℝ) (ox oy n : ℕ)
    (hp : p_std data ox oy n ≠ 0) :
    -1 ≤ corrcoef data ox oy n ∧ corrcoef data ox oy n ≤ 1 := by
  rw [corrcoef_of_p_std_ne_zero data ox oy n hp]
  exact quotient_bounds data ox oy n (cast_ne_zero_of_p_std_ne_zero hp) hp

/-- On a non-degenerate pair of windows the coefficient is not the
sentinel. -/
lemma corrcoef_ne_neg_two (data : ℕ → ℝ) (ox oy n : ℕ)
    (hp : p_std data ox oy n ≠ 0) :
    corrcoef data ox oy n ≠ -2 := by
  have h := (corrcoef_bounds data ox oy n hp).1
  intro hc
  rw [hc] at h
  norm_num at h

/-- The sentinel is returned exactly on degenerate windows. -/
lemma corrcoef_eq_neg_two_iff (data : ℕ → ℝ) (ox oy n : ℕ) :
    corrcoef data ox oy n = -2 ↔ p_std data ox oy n = 0 := by
  constructor
  · intro h
    by_contra hp
    exact corrcoef_ne_neg_two data ox oy n hp h
  · exact corrcoef_of_p_std_eq_zero data ox oy n

/-- On a single window `p_std` collapses to the variance-like term. -/
lemma p_std_self (data : ℕ → ℝ) (ox n : ℕ) :
    p_std data ox ox n = s_sq data ox n - ms data ox n := by
  unfold p_std
  exact Real.mul_self_sqrt (var_nonneg data ox n)

/-- Correlating a window with itself yields `1` whenever the window has
nonzero variance. -/
lemma corrcoef_self (data : ℕ → ℝ) (ox n : ℕ)
    (hv : s_sq data ox n - ms data ox n ≠ 0) :
    corrcoef data ox ox n = 1 := by
  have hp : p_std data ox ox n ≠ 0 := by
    rw [p_std_self]
    exact hv
  rw [corrcoef_of_p_std_ne_zero data ox ox n hp, p_std_self, ← var_eq_cov]
  exact div_self hv

/-- Correlating a window with its pointwise negation yields `-1` whenever
the window has nonzero variance. -/
lemma corrcoef_neg_window (data : ℕ → ℝ) (ox oy n : ℕ)
    (hneg : ∀ i < n, data (oy + i) = -data (ox + i))
    (hv : s_sq data ox n - ms data ox n ≠ 0) :
    corrcoef data ox oy n = -1 := by
  have hsy : s_sum data oy n = -s_sum data ox n := by
    unfold s_sum
    rw [← Finset.sum_neg_distrib]
    exact Finset.sum_congr rfl fun i hi => hneg i (mem_range.mp hi)
  have hxy : s_xy data ox oy n = -s_sq data ox n := by
    unfold s_xy s_sq
    rw [← Finset.sum_neg_distrib]
    refine Finset.sum_congr rfl fun i hi => ?_
    rw [hneg i (mem_range.mp hi)]
    ring
  have hsqy : s_sq data oy n = s_sq data ox n := by
    unfold s_sq
    refine Finset.sum_congr rfl fun i hi => ?_
    rw [hneg i (mem_range.mp hi)]
    ring
  have hmsy : ms data oy n = ms data ox n := by
    unfold ms
    rw [hsy]
    ring
  have hcov : cov data ox oy n = -(s_sq data ox n - ms data ox n) := by
    unfold cov ms
    rw [hxy, hsy]
    ring
  have hp : p_std data ox oy n = s_sq data ox n - ms data ox n := by
    unfold p_std
    rw [hsqy, hmsy]
    exact Real.mul_self_sqrt (var_nonneg data ox n)
  have hp' : p_std data ox oy n ≠ 0 := by
    rw [hp]
    exact hv
  rw [corrcoef_of_p_std_ne_zero data ox oy n hp', hp, hcov, neg_div,
    div_self hv]

/-- On a non-degenerate pair of windows, `corrcoef` computes exactly the
textbook Pearson correlation coefficient of the two windows. -/
lemma corrcoef_eq_pearson (data : ℕ → ℝ) (ox oy n : ℕ)
    (hp : p_std data ox oy n ≠ 0) :
    corrcoef data ox oy n =
      pearson (fun i => data (ox + i)) (fun i => data (oy + i)) n := by
  have hn : (n : ℝ) ≠ 0 := cast_ne_zero_of_p_std_ne_zero hp
  rw [corrcoef_of_p_std_ne_zero data ox oy n hp]
  unfold pearson p_std
  rw [cov_eq_centered data ox oy n hn, var_eq_centered data ox n hn,
    var_eq_centered data oy n hn]
  rfl

/-! ### Facts about the builder loops -/

/-- Rows are stored without overlap: a strictly smaller row index gives a
strictly smaller flat index, whatever the column offsets. -/
lemma cell_lt {d1 i j t u : ℕ} (ht : t < d1) (hij : i < j) :
    i * d1 + t < j * d1 + u := by
  have h2 : (i + 1) * d1 ≤ j * d1 := Nat.mul_le_mul_right _ hij
  rw [Nat.succ_mul] at h2
  omega

/-- In-range cells map injectively to flat indices. -/
lemma cell_index_inj {d1 i t j u : ℕ} (ht : t < d1) (hu : u < d1)
    (h : i * d1 + t = j * d1 + u) : i = j ∧ t = u := by
  rcases Nat.lt_trichotomy i j with hlt | heq | hgt
  · exact absurd h (Nat.ne_of_lt (cell_lt ht hlt))
  · subst heq
    omega
  · exact absurd h.symm (Nat.ne_of_lt (cell_lt hu hgt))

/-- Cells whose flat index the inner loop never touches keep their
previous contents, whether the loop completes or aborts. -/
lemma fillRow_frame (sig : ℕ → ℝ) (wlen d1 row d : ℕ) :
    ∀ (ts : List ℕ) (cg : ℕ → ℝ) (k : ℕ),
      (∀ t ∈ ts, k ≠ row * d1 + t) →
      (fillRow sig wlen d1 row d ts cg).2 k = cg k := by
  intro ts
  induction ts with
  | nil =>
    intro cg k _
    rfl
  | cons t ts ih =>
    intro cg k hk
    simp only [fillRow]
    by_cases hr : corrcoef sig t (t + d) wlen = -2
    · rw [if_pos hr]
    · rw [if_neg hr,
        ih _ _ (fun t' ht' => hk t' (List.mem_cons_of_mem _ ht'))]
      exact Function.update_noteq (hk t (List.mem_cons_self t ts)) _ _

/-- The inner loop returns code `1` exactly when no window start in its
list produces the sentinel. -/
lemma fillRow_code (sig : ℕ → ℝ) (wlen d1 row d : ℕ) :
    ∀ (ts : List ℕ) (cg : ℕ → ℝ),
      (fillRow sig wlen d1 row d ts cg).1 = 1 ↔
        ∀ t ∈ ts, corrcoef sig t (t + d) wlen ≠ -2 := by
  intro ts
  induction ts with
  | nil =>
    intro cg
    simp [fillRow]
  | cons t ts ih =>
    intro cg
    simp only [fillRow]
    by_cases hr : corrcoef sig t (t + d) wlen = -2
    · rw [if_pos hr]
      constructor
      · intro h
        norm_num at h
      · intro h
        exact absurd hr (h t (List.mem_cons_self t ts))
    · rw [if_neg hr, ih]
      constructor
      · intro h t' ht'
        rcases List.mem_cons.mp ht' with h1 | h1
        · subst h1
          exact hr
        · exact h t' h1
      · intro h t' ht'
        exact h t' (List.mem_cons_of_mem _ ht')

/-- The inner loop's code is `0` or `1`. -/
lemma fillRow_code_cases (sig : ℕ → ℝ) (wlen d1 row d : ℕ) :
    ∀ (ts : List ℕ) (cg : ℕ → ℝ),
      (fillRow sig wlen d1 row d ts cg).1 = 0 ∨
        (fillRow sig wlen d1 row d ts cg).1 = 1 := by
  intro ts
  induction ts with
  | nil =>
    intro cg
    exact Or.inr rfl
  | cons t ts ih =>
    intro cg
    simp only [fillRow]
    by_cases hr : corrcoef sig t (t + d) wlen = -2
    · rw [if_pos hr]
      exact Or.inl rfl
    · rw [if_neg hr]
      exact ih _

/-- When no window start of its list hits the sentinel, the inner loop
stores the transformed coefficient of every start of the list. -/
lemma fillRow_value (sig : ℕ → ℝ) (wlen d1 row d : ℕ) :
    ∀ (ts : List ℕ) (cg : ℕ → ℝ) (t : ℕ), t ∈ ts →
      (∀ t' ∈ ts, corrcoef sig t' (t' + d) wlen ≠ -2) →
      (fillRow sig wlen d1 row d ts cg).2 (row * d1 + t) =
        transform (corrcoef sig t (t + d) wlen) := by
  intro ts
  induction ts with
  | nil =>
    intro cg t ht
    exact absurd ht (List.not_mem_nil t)
  | cons t0 ts ih =>
    intro cg t ht hok
    have hr0 : corrcoef sig t0 (t0 + d) wlen ≠ -2 :=
      hok t0 (List.mem_cons_self t0 ts)
    simp only [fillRow]
    rw [if_neg hr0]
    by_cases hmem : t ∈ ts
    · exact ih _ t hmem fun t' ht' => hok t' (List.mem_cons_of_mem _ ht')
    · have ht0 : t = t0 := by
        rcases List.mem_cons.mp ht with h | h
        · exact h
        · exact absurd h hmem
      subst ht0
      have hfr : ∀ t' ∈ ts, row * d1 + t ≠ row * d1 + t' := by
        intro t' ht' heq
        have he : t = t' := by omega
        subst he
        exact hmem ht'
      rw [fillRow_frame sig wlen d1 row d ts _ _ hfr, Function.update_same]

/-- The inner loop over a concatenation splits: when the first part is
sentinel-free it is processed fully, then the second part runs on the
resulting buffer. -/
lemma fillRow_append (sig : ℕ → ℝ) (wlen d1 row d : ℕ) :
    ∀ (ts1 ts2 : List ℕ) (cg : ℕ → ℝ),
      (∀ t ∈ ts1, corrcoef sig t (t + d) wlen ≠ -2) →
      fillRow sig wlen d1 row d (ts1 ++ ts2) cg =
        fillRow sig wlen d1 row d ts2
          (fillRow sig wlen d1 row d ts1 cg).2 := by
  intro ts1
  induction ts1 with
  | nil =>
    intro ts2 cg _
    rfl
  | cons t0 ts ih =>
    intro ts2 cg hok
    have hr0 : corrcoef sig t0 (t0 + d) wlen ≠ -2 :=
      hok t0 (List.mem_cons_self t0 ts)
    simp only [List.cons_append, fillRow]
    rw [if_neg hr0, if_neg hr0]
    exact ih ts2 _ fun t ht => hok t (List.mem_cons_of_mem _ ht)

/-- The inner loop aborts at once, leaving the buffer untouched, when its
first window start hits the sentinel. -/
lemma fillRow_head_fail (sig : ℕ → ℝ) (wlen d1 row d t0 : ℕ)
    (ts : List ℕ) (cg : ℕ → ℝ)
    (hr : corrcoef sig t0 (t0 + d) wlen = -2) :
    fillRow sig wlen d1 row d (t0 :: ts) cg = (0, cg) := by
  simp only [fillRow]
  rw [if_pos hr]

/-- Cells whose flat index the outer loop never touches keep their
previous contents, whether the loop completes or aborts. -/
lemma fillRows_frame (sig : ℕ → ℝ) (delays : ℕ → ℕ) (wlen d1 : ℕ) :
    ∀ (is : List ℕ) (cg : ℕ → ℝ) (k : ℕ),
      (∀ i ∈ is, ∀ t < d1, k ≠ i * d1 + t) →
      (fillRows sig delays wlen d1 is cg).2 k = cg k := by
  intro is
  induction is with
  | nil =>
    intro cg k _
    rfl
  | cons i0 is ih =>
    intro cg k hk
    have hfr : (fillRow sig wlen d1 i0 (delays i0) (List.range d1) cg).2 k =
        cg k :=
      fillRow_frame sig wlen d1 i0 (delays i0) _ _ _ fun t ht =>
        hk i0 (List.mem_cons_self i0 is) t (List.mem_range.mp ht)
    simp only [fillRows]
    by_cases hc : (fillRow sig wlen d1 i0 (delays i0) (List.range d1) cg).1 = 0
    · rw [if_pos hc]
      exact hfr
    · rw [if_neg hc,
        ih _ _ fun i hi t ht => hk i (List.mem_cons_of_mem _ hi) t ht]
      exact hfr

/-- The outer loop returns code `1` exactly when no cell of its rows
produces the sentinel. -/
lemma fillRows_code (sig : ℕ → ℝ) (delays : ℕ → ℕ) (wlen d1 : ℕ) :
    ∀ (is : List ℕ) (cg : ℕ → ℝ),
      (fillRows sig delays wlen d1 is cg).1 = 1 ↔
        ∀ i ∈ is, ∀ t < d1, corrcoef sig t (t + delays i) wlen ≠ -2 := by
  intro is
  induction is with
  | nil =>
    intro cg
    simp [fillRows]
  | cons i0 is ih =>
    intro cg
    simp only [fillRows]
    by_cases hc : (fillRow sig wlen d1 i0 (delays i0) (List.range d1) cg).1 = 0
    · rw [if_pos hc]
      constructor
      · intro h
        norm_num at h
      · intro h
        have hone : (fillRow sig wlen d1 i0 (delays i0)
            (List.range d1) cg).1 = 1 :=
          (fillRow_code sig wlen d1 i0 (delays i0) _ _).mpr fun t ht =>
            h i0 (List.mem_cons_self i0 is) t (List.mem_range.mp ht)
        rw [hone] at hc
        norm_num at hc
    · rw [if_neg hc, ih]
      have hone : (fillRow sig wlen d1 i0 (delays i0)
          (List.range d1) cg).1 = 1 := by
        rcases fillRow_code_cases sig wlen d1 i0 (delays i0)
          (List.range d1) cg with h | h
        · exact absurd h hc
        · exact h
      have hrow := (fillRow_code sig wlen d1 i0 (delays i0) _ _).mp hone
      constructor
      · intro h i hi t ht
        rcases List.mem_cons.mp hi with h1 | h1
        · subst h1
          exact hrow t (List.mem_range.mpr ht)
        · exact h i h1 t ht
      · intro h i hi t ht
        exact h i (List.mem_cons_of_mem _ hi) t ht

/-- When no cell of its rows hits the sentinel, the outer loop stores the
transformed coefficient of every cell. -/
lemma fillRows_value (sig : ℕ → ℝ) (delays : ℕ → ℕ) (wlen d1 : ℕ) :
    ∀ (is : List ℕ) (cg : ℕ → ℝ) (i t : ℕ), i ∈ is → t < d1 →
      (∀ i' ∈ is, ∀ t' < d1, corrcoef sig t' (t' + delays i') wlen ≠ -2) →
      (fillRows sig delays wlen d1 is cg).2 (i * d1 + t) =
        transform (corrcoef sig t (t + delays i) wlen) := by
  intro is
  induction is with
  | nil =>
    intro cg i t hi
    exact absurd hi (List.not_mem_nil i)
  | cons i0 is ih =>
    intro cg i t hi ht hok
    have hrow0 : ∀ t' ∈ List.range d1,
        corrcoef sig t' (t' + delays i0) wlen ≠ -2 :=
      fun t' ht' => hok i0 (List.mem_cons_self i0 is) t' (List.mem_range.mp ht')
    have hone : (fillRow sig wlen d1 i0 (delays i0)
        (List.range d1) cg).1 = 1 :=
      (fillRow_code sig wlen d1 i0 (delays i0) _ _).mpr hrow0
    have hc : ¬ (fillRow sig wlen d1 i0 (delays i0)
        (List.range d1) cg).1 = 0 := by
      rw [hone]
      norm_num
    simp only [fillRows]
    rw [if_neg hc]
    by_cases hmem : i ∈ is
    · exact ih _ i t hmem ht fun i' hi' => hok i' (List.mem_cons_of_mem _ hi')
    · have hi0 : i = i0 := by
        rcases List.mem_cons.mp hi with h | h
        · exact h
        · exact absurd h hmem
      subst hi0
      have hfr : ∀ i' ∈ is, ∀ t' < d1, i * d1 + t ≠ i' * d1 + t' := by
        intro i' hi' t' ht' heq
        have he : i = i' := (cell_index_inj ht ht' heq).1
        subst he
        exact hmem hi'
      rw [fillRows_frame sig delays wlen d1 is _ _ hfr]
      exact fillRow_value sig wlen d1 i (delays i) _ cg t
        (List.mem_range.mpr ht) hrow0

/-- The outer loop over a concatenation splits: when the first part is
sentinel-free it is processed fully, then the second part runs on the
resulting buffer. -/
lemma fillRows_append (sig : ℕ → ℝ) (delays : ℕ → ℕ) (wlen d1 : ℕ) :
    ∀ (is1 is2 : List ℕ) (cg : ℕ → ℝ),
      (∀ i ∈ is1, ∀ t < d1, corrcoef sig t (t + delays i) wlen ≠ -2) →
      fillRows sig delays wlen d1 (is1 ++ is2) cg =
        fillRows sig delays wlen d1 is2
          (fillRows sig delays wlen d1 is1 cg).2 := by
  intro is1
  induction is1 with
  | nil =>
    intro is2 cg _
    rfl
  | cons i0 is ih =>
    intro is2 cg hok
    have hone : (fillRow sig wlen d1 i0 (delays i0)
        (List.range d1) cg).1 = 1 :=
      (fillRow_code sig wlen d1 i0 (delays i0) _ _).mpr fun t ht =>
        hok i0 (List.mem_cons_self i0 is) t (List.mem_range.mp ht)
    have hc : ¬ (fillRow sig wlen d1 i0 (delays i0)
        (List.range d1) cg).1 = 0 := by
      rw [hone]
      norm_num
    simp only [List.cons_append, fillRows]
    rw [if_neg hc, if_neg hc]
    exact ih is2 _ fun i hi t ht => hok i (List.mem_cons_of_mem _ hi) t ht

/-- With an empty column range the outer loop writes nothing and
succeeds. -/
lemma fillRows_d1_zero (sig : ℕ → ℝ) (delays : ℕ → ℕ) (wlen : ℕ) :
    ∀ (is : List ℕ) (cg : ℕ → ℝ),
      fillRows sig delays wlen 0 is cg = (1, cg) := by
  intro is
  induction is with
  | nil =>
    intro cg
    rfl
  | cons i0 is ih =>
    intro cg
    simp only [fillRows, List.range_zero, fillRow]
    rw [if_neg ?hc]
    · exact ih cg
    · norm_num

/-- The delay-range outer loop on a list of successor delays coincides
with the delay-list outer loop on the underlying row indices with the
successor delay function. -/
lemma fillRangeRows_eq_fillRows (sig : ℕ → ℝ) (wlen d1 : ℕ) :
    ∀ (is : List ℕ) (cg : ℕ → ℝ),
      fillRangeRows sig wlen d1 (List.map (fun i => i + 1) is) cg =
        fillRows sig (fun i => i + 1) wlen d1 is cg := by
  intro is
  induction is with
  | nil =>
    intro cg
    rfl
  | cons i0 is ih =>
    intro cg
    simp only [List.map_cons, fillRangeRows, fillRows, Nat.add_sub_cancel]
    by_cases hc : (fillRow sig wlen d1 i0 (i0 + 1) (List.range d1) cg).1 = 0
    · rw [if_pos hc, if_pos hc]
    · rw [if_neg hc, if_neg hc]
      exact ih _

/-- The implicit delay list `1, …, D-1` of `correlogram` as a mapped
index list. -/
lemma range'_one_eq_map (m : ℕ) :
    List.range' 1 m = List.map (fun i => i + 1) (List.range m) := by
  rw [List.range'_eq_map_range]
  induction List.range m with
  | nil => rfl
  | cons a l ih =>
    simp only [List.map_cons, ih, Nat.add_comm]

/-- The delay-range builder is the delay-list builder run on the explicit
delay sequence `1, 2, …, dims.1 - 1` with one row fewer. -/
lemma correlogram_eq_correlogram_delay (sig : ℕ → ℝ) (wlen D T : ℕ)
    (cg : ℕ → ℝ) :
    correlogram sig wlen (D, T) cg =
      correlogram_delay sig (fun i => i + 1) wlen (D - 1, T) cg := by
  show fillRangeRows sig wlen T (List.range' 1 (D - 1)) cg =
    fillRows sig (fun i => i + 1) wlen T (List.range (D - 1)) cg
  rw [range'_one_eq_map]
  exact fillRangeRows_eq_fillRows sig wlen T _ cg

/-- Splitting an index range at an interior point: the part before, the
point itself, the part after. -/
lemma range_split (d0 i0 : ℕ) (h : i0 < d0) :
    List.range d0 =
      List.range i0 ++ (i0 :: List.range' (i0 + 1) (d0 - i0 - 1)) := by
  have h1 : d0 = ((d0 - i0 - 1) + 1) + i0 := by omega
  rw [List.range_eq_range', List.range_eq_range']
  nth_rewrite 1 [h1]
  rw [← List.range'_append_1 0 i0 ((d0 - i0 - 1) + 1), Nat.zero_add,
    List.range'_succ]

/-! ### Concrete evaluations used by the witnesses -/

/-- Helper ramp signal `0, 1, 2, …` used to exhibit concrete
non-degenerate windows. -/
def rampSig : ℕ → ℝ := fun i => (i : ℝ)

/-- The length-2 ramp window at offset 0 has variance-like term `1/2`. -/
lemma ramp_var0 : s_sq rampSig 0 2 - ms rampSig 0 2 = 1 / 2 := by
  simp [s_sq, ms, s_sum, rampSig, Finset.sum_range_succ]
  norm_num

/-- The length-2 ramp window at offset 1 has variance-like term `1/2`. -/
lemma ramp_var1 : s_sq rampSig 1 2 - ms rampSig 1 2 = 1 / 2 := by
  simp [s_sq, ms, s_sum, rampSig, Finset.sum_range_succ]
  norm_num

/-- The two length-2 windows of the ramp at offsets 0 and 1 have
`p_std = 1/2`. -/
lemma p_std_ramp : p_std rampSig 0 1 2 = 1 / 2 := by
  unfold p_std
  rw [ramp_var0, ramp_var1,
    Real.mul_self_sqrt (by norm_num : (0:ℝ) ≤ 1 / 2)]

/-- The ramp windows at offsets 0 and 1 are perfectly correlated. -/
lemma corrcoef_ramp : corrcoef rampSig 0 1 2 = 1 := by
  have hc : cov rampSig 0 1 2 = 1 / 2 := by
    simp [cov, s_xy, s_sum, rampSig, Finset.sum_range_succ]
    norm_num
  unfold corrcoef
  rw [p_std_ramp, hc]
  norm_num

/-- Helper signal `0, 1, 0, -1, 0, 0, …` whose window at offset 2 is the
negation of its window at offset 0. -/
def antiSig : ℕ → ℝ := fun i => if i = 1 then 1 else if i = 3 then -1 else 0

/-- The length-2 window of `antiSig` at offset 0 has variance-like term
`1/2`. -/
lemma anti_var0 : s_sq antiSig 0 2 - ms antiSig 0 2 = 1 / 2 := by
  simp [s_sq, ms, s_sum, antiSig, Finset.sum_range_succ]
  norm_num

/-- On the all-zero signal every window is degenerate. -/
lemma p_std_zero_sig (ox oy n : ℕ) :
    p_std (fun _ => (0:ℝ)) ox oy n = 0 := by
  simp [p_std, s_sq, ms, s_sum]

/-- On the all-zero signal `corrcoef` returns the sentinel. -/
lemma corrcoef_zero_sig (ox oy n : ℕ) :
    corrcoef (fun _ => (0:ℝ)) ox oy n = -2 :=
  corrcoef_of_p_std_eq_zero _ ox oy n (p_std_zero_sig ox oy n)

/-- Behaviour of the delay-list builder at the first sentinel cell: code
`0`, all lexicographically earlier cells written, nothing else touched. -/
lemma correlogram_delay_abort (sig : ℕ → ℝ) (delays : ℕ → ℕ)
    (wlen d0 d1 i0 t0 : ℕ) (cg : ℕ → ℝ) (hi0 : i0 < d0) (ht0 : t0 < d1)
    (hfail : corrcoef sig t0 (t0 + delays i0) wlen = -2)
    (hbefore : ∀ i t, i < d0 → t < d1 → (i < i0 ∨ (i = i0 ∧ t < t0)) →
      corrcoef sig t (t + delays i) wlen ≠ -2) :
    (correlogram_delay sig delays wlen (d0, d1) cg).1 = 0 ∧
      (∀ i t, i < d0 → t < d1 → (i < i0 ∨ (i = i0 ∧ t < t0)) →
        (correlogram_delay sig delays wlen (d0, d1) cg).2 (i * d1 + t) =
          transform (corrcoef sig t (t + delays i) wlen)) ∧
      (∀ k, (∀ i t, i < d0 → t < d1 → (i < i0 ∨ (i = i0 ∧ t < t0)) →
          k ≠ i * d1 + t) →
        (correlogram_delay sig delays wlen (d0, d1) cg).2 k = cg k) := by
  have hpre_rows : ∀ i ∈ List.range i0, ∀ t < d1,
      corrcoef sig t (t + delays i) wlen ≠ -2 := by
    intro i hi t ht
    exact hbefore i t (lt_trans (List.mem_range.mp hi) hi0) ht
      (Or.inl (List.mem_range.mp hi))
  have hpre_cols : ∀ t ∈ List.range t0,
      corrcoef sig t (t + delays i0) wlen ≠ -2 := by
    intro t ht
    exact hbefore i0 t hi0 (lt_trans (List.mem_range.mp ht) ht0)
      (Or.inr ⟨rfl, List.mem_range.mp ht⟩)
  have hrun : correlogram_delay sig delays wlen (d0, d1) cg =
      (0, (fillRow sig wlen d1 i0 (delays i0) (List.range t0)
            (fillRows sig delays wlen d1 (List.range i0) cg).2).2) := by
    show fillRows sig delays wlen d1 (List.range d0) cg = _
    rw [range_split d0 i0 hi0,
      fillRows_append sig delays wlen d1 _ _ cg hpre_rows]
    have hinner : fillRow sig wlen d1 i0 (delays i0) (List.range d1)
        (fillRows sig delays wlen d1 (List.range i0) cg).2 =
        (0, (fillRow sig wlen d1 i0 (delays i0) (List.range t0)
              (fillRows sig delays wlen d1 (List.range i0) cg).2).2) := by
      rw [range_split d1 t0 ht0,
        fillRow_append sig wlen d1 i0 (delays i0) _ _ _ hpre_cols]
      exact fillRow_head_fail sig wlen d1 i0 (delays i0) t0 _ _ hfail
    simp [fillRows, hinner]
  refine ⟨?_, ?_, ?_⟩
  · rw [hrun]
  · intro i t hi ht hlex
    rw [hrun]
    show (fillRow sig wlen d1 i0 (delays i0) (List.range t0)
        (fillRows sig delays wlen d1 (List.range i0) cg).2).2 (i * d1 + t) = _
    rcases hlex with hlt | ⟨heq, hlt⟩
    · have hfr : ∀ t' ∈ List.range t0, i * d1 + t ≠ i0 * d1 + t' := by
        intro t' ht' heq
        have hii : i = i0 :=
          (cell_index_inj ht (lt_trans (List.mem_range.mp ht') ht0) heq).1
        omega
      rw [fillRow_frame sig wlen d1 i0 (delays i0) _ _ _ hfr]
      exact fillRows_value sig delays wlen d1 _ cg i t
        (List.mem_range.mpr hlt) ht hpre_rows
    · subst heq
      exact fillRow_value sig wlen d1 i (delays i) _ _ t
        (List.mem_range.mpr hlt) hpre_cols
  · intro k hk
    rw [hrun]
    show (fillRow sig wlen d1 i0 (delays i0) (List.range t0)
        (fillRows sig delays wlen d1 (List.range i0) cg).2).2 k = cg k
    have hfr1 : ∀ t' ∈ List.range t0, k ≠ i0 * d1 + t' := by
      intro t' ht'
      exact hk i0 t' hi0 (lt_trans (List.mem_range.mp ht') ht0)
        (Or.inr ⟨rfl, List.mem_range.mp ht'⟩)
    rw [fillRow_frame sig wlen d1 i0 (delays i0) _ _ _ hfr1]
    refine fillRows_frame sig delays wlen d1 _ _ _ fun i hi t ht => ?_
    exact hk i t (lt_trans (List.mem_range.mp hi) hi0) ht
      (Or.inl (List.mem_range.mp hi))

/-- With empty dimensions the delay-list builder writes nothing and
returns `1`. -/
lemma correlogram_delay_vacuous (sig : ℕ → ℝ) (delays : ℕ → ℕ) (wlen : ℕ)
    (dims : ℕ × ℕ) (cg : ℕ → ℝ) (h : dims.1 = 0 ∨ dims.2 = 0) :
    correlogram_delay sig delays wlen dims cg = (1, cg) := by
  obtain ⟨d0, d1⟩ := dims
  rcases h with h | h
  · have h' : d0 = 0 := h
    subst h'
    rfl
  · have h' : d1 = 0 := h
    subst h'
    exact fillRows_d1_zero sig delays wlen _ cg

/-- With at most one delay or an empty position range the delay-range
builder writes nothing and returns `1`. -/
lemma correlogram_vacuous (sig : ℕ → ℝ) (wlen : ℕ)
    (dims : ℕ × ℕ) (cg : ℕ → ℝ) (h : dims.1 ≤ 1 ∨ dims.2 = 0) :
    correlogram sig wlen dims cg = (1, cg) := by
  obtain ⟨D, T⟩ := dims
  rw [correlogram_eq_correlogram_delay]
  apply correlogram_delay_vacuous
  rcases h with h | h
  · left
    show D - 1 = 0
    have h' : D ≤ 1 := h
    omega
  · right
    exact h

/-- The rectify-then-fourth-power transform maps `[-1, 1]` into
`[0, 1]`. -/
lemma transform_mem_unit (r : ℝ) (h1 : -1 ≤ r) (h2 : r ≤ 1) :
    0 ≤ transform r ∧ transform r ≤ 1 := by
  unfold transform
  split
  · rename_i hr
    refine ⟨by positivity, ?_⟩
    calc r ^ 4 ≤ 1 ^ 4 := by
          refine pow_le_pow_left₀ (le_of_lt hr) h2 4
      _ = 1 := one_pow 4
  · exact ⟨le_refl 0, zero_le_one⟩

/-! ### Claim theorems -/

/-- C1: for every signal buffer, offsets and window length `n > 0` with a
non-degenerate pair of windows, `corrcoef` returns `cov / p_std` computed
from the single-pass sums, and this equals the Pearson correlation
coefficient of the two length-`n` windows. -/
theorem claim_corrcoef_single_pass_pearson
    (data : ℕ → ℝ) (off_x off_y n : ℕ) (hn : 0 < n)
    (hp : p_std data off_x off_y n ≠ 0) :
    corrcoef data off_x off_y n =
      cov data off_x off_y n / p_std data off_x off_y n ∧
    corrcoef data off_x off_y n =
      pearson (fun i => data (off_x + i)) (fun i => data (off_y + i)) n :=
  ⟨corrcoef_of_p_std_ne_zero data off_x off_y n hp,
   corrcoef_eq_pearson data off_x off_y n hp⟩

/-- Witness for C1 at the ramp signal, offsets 0 and 1, window length 2. -/
theorem claim_corrcoef_single_pass_pearson_witness :
    corrcoef rampSig 0 1 2 = cov rampSig 0 1 2 / p_std rampSig 0 1 2 ∧
    corrcoef rampSig 0 1 2 =
      pearson (fun i => rampSig (0 + i)) (fun i => rampSig (1 + i)) 2 :=
  claim_corrcoef_single_pass_pearson rampSig 0 1 2 (by norm_num)
    (by rw [p_std_ramp]; norm_num)

/-- C3: `corrcoef` returns the sentinel `-2` if and only if `p_std = 0`;
otherwise it returns the quotient `cov / p_std`, which lies in
`[-1, 1]`. -/
theorem claim_corrcoef_sentinel_iff_and_bounds
    (data : ℕ → ℝ) (off_x off_y n : ℕ) (hn : 0 < n) :
    (corrcoef data off_x off_y n = -2 ↔ p_std data off_x off_y n = 0) ∧
    (p_std data off_x off_y n ≠ 0 →
      corrcoef data off_x off_y n =
        cov data off_x off_y n / p_std data off_x off_y n ∧
      -1 ≤ corrcoef data off_x off_y n ∧ corrcoef data off_x off_y n ≤ 1) :=
  ⟨corrcoef_eq_neg_two_iff data off_x off_y n,
   fun hp => ⟨corrcoef_of_p_std_ne_zero data off_x off_y n hp,
     corrcoef_bounds data off_x off_y n hp⟩⟩

/-- Witness for C3 at the ramp signal, offsets 0 and 1, window length 2. -/
theorem claim_corrcoef_sentinel_iff_and_bounds_witness :
    (corrcoef rampSig 0 1 2 = -2 ↔ p_std rampSig 0 1 2 = 0) ∧
    (p_std rampSig 0 1 2 ≠ 0 →
      corrcoef rampSig 0 1 2 = cov rampSig 0 1 2 / p_std rampSig 0 1 2 ∧
      -1 ≤ corrcoef rampSig 0 1 2 ∧ corrcoef rampSig 0 1 2 ≤ 1) :=
  claim_corrcoef_sentinel_iff_and_bounds rampSig 0 1 2 (by norm_num)

/-- C2: when no cell of the delay-list builder is degenerate,
`correlogram_delay` returns `1` and stores at `cgram[i*dims.2 + t]` the
transformed coefficient of the windows at `t` and `t + delays i`. -/
theorem claim_correlogram_delay_correct
    (sig : ℕ → ℝ) (delays : ℕ → ℕ) (wlen d0 d1 : ℕ) (cg : ℕ → ℝ)
    (hok : ∀ i < d0, ∀ t < d1, p_std sig t (t + delays i) wlen ≠ 0) :
    (correlogram_delay sig delays wlen (d0, d1) cg).1 = 1 ∧
    ∀ i < d0, ∀ t < d1,
      (correlogram_delay sig delays wlen (d0, d1) cg).2 (i * d1 + t) =
        transform (corrcoef sig t (t + delays i) wlen) := by
  have hok' : ∀ i ∈ List.range d0, ∀ t < d1,
      corrcoef sig t (t + delays i) wlen ≠ -2 := fun i hi t ht =>
    corrcoef_ne_neg_two sig t (t + delays i) wlen
      (hok i (List.mem_range.mp hi) t ht)
  exact ⟨(fillRows_code sig delays wlen d1 (List.range d0) cg).mpr hok',
    fun i hi t ht => fillRows_value sig delays wlen d1 (List.range d0) cg
      i t (List.mem_range.mpr hi) ht hok'⟩

/-- Witness for C2: a one-cell run on the ramp signal succeeds. -/
theorem claim_correlogram_delay_correct_witness :
    (correlogram_delay rampSig (fun _ => 1) 2 (1, 1) (fun _ => 0)).1 = 1 ∧
    (correlogram_delay rampSig (fun _ => 1) 2 (1, 1) (fun _ => 0)).2
        (0 * 1 + 0) = transform (corrcoef rampSig 0 (0 + 1) 2) := by
  have h := claim_correlogram_delay_correct rampSig (fun _ => 1) 2 1 1
    (fun _ => 0) ?hok
  · exact ⟨h.1, h.2 0 (by norm_num) 0 (by norm_num)⟩
  case hok =>
    intro i hi t ht
    have hi0 : i = 0 := by omega
    have ht0 : t = 0 := by omega
    subst hi0
    subst ht0
    show p_std rampSig 0 1 2 ≠ 0
    rw [p_std_ramp]
    norm_num

/-- C5: when no cell of the delay-range builder is degenerate,
`correlogram` returns `1`, stores at `cgram[(d-1)*T + off]` the
transformed coefficient of the windows at `off` and `off + d` for every
delay `d ∈ [1, D)` and position `off < T`, and touches no flat index at
or beyond `(D-1)*T`. -/
theorem claim_correlogram_range_correct
    (sig : ℕ → ℝ) (wlen D T : ℕ) (cg : ℕ → ℝ)
    (hok : ∀ d, 1 ≤ d → d < D → ∀ t < T, p_std sig t (t + d) wlen ≠ 0) :
    (correlogram sig wlen (D, T) cg).1 = 1 ∧
    (∀ d, 1 ≤ d → d < D → ∀ off < T,
      (correlogram sig wlen (D, T) cg).2 ((d - 1) * T + off) =
        transform (corrcoef sig off (off + d) wlen)) ∧
    (∀ k, (D - 1) * T ≤ k → (correlogram sig wlen (D, T) cg).2 k = cg k) := by
  rw [correlogram_eq_correlogram_delay]
  have hok' : ∀ i ∈ List.range (D - 1), ∀ t < T,
      corrcoef sig t (t + (i + 1)) wlen ≠ -2 := by
    intro i hi t ht
    have hiD : i < D - 1 := List.mem_range.mp hi
    exact corrcoef_ne_neg_two sig t (t + (i + 1)) wlen
      (hok (i + 1) (by omega) (by omega) t ht)
  refine ⟨(fillRows_code sig (fun i => i + 1) wlen T
    (List.range (D - 1)) cg).mpr hok', ?_, ?_⟩
  · intro d h1 hD off hoff
    have hval : (correlogram_delay sig (fun i => i + 1) wlen (D - 1, T)
          cg).2 ((d - 1) * T + off) =
        transform (corrcoef sig off (off + (d - 1 + 1)) wlen) :=
      fillRows_value sig (fun i => i + 1) wlen T (List.range (D - 1)) cg
        (d - 1) off (List.mem_range.mpr (by omega)) hoff hok'
    have hd : d - 1 + 1 = d := by omega
    rw [hd] at hval
    exact hval
  · intro k hk
    refine fillRows_frame sig (fun i => i + 1) wlen T _ cg k ?_
    intro i hi t ht
    have hiD : i < D - 1 := List.mem_range.mp hi
    have hlt : i * T + t < (D - 1) * T := by
      have h2 : (i + 1) * T ≤ (D - 1) * T := Nat.mul_le_mul_right _ (by omega)
      rw [Nat.succ_mul] at h2
      omega
    omega

/-- Witness for C5: a one-cell run on the ramp signal with `dims=(2,1)`. -/
theorem claim_correlogram_range_correct_witness :
    (correlogram rampSig 2 (2, 1) (fun _ => 0)).1 = 1 ∧
    (correlogram rampSig 2 (2, 1) (fun _ => 0)).2 ((1 - 1) * 1 + 0) =
      transform (corrcoef rampSig 0 (0 + 1) 2) ∧
    (correlogram rampSig 2 (2, 1) (fun _ => 0)).2 5 = 0 := by
  have h := claim_correlogram_range_correct rampSig 2 2 1 (fun _ => 0) ?hok
  · exact ⟨h.1, h.2.1 1 (by norm_num) (by norm_num) 0 (by norm_num),
      h.2.2 5 (by norm_num)⟩
  case hok =>
    intro d h1 hD t ht
    have hd : d = 1 := by omega
    have ht0 : t = 0 := by omega
    subst hd
    subst ht0
    show p_std rampSig 0 1 2 ≠ 0
    rw [p_std_ramp]
    norm_num

/-- C7: the delay-range builder with `dims = (D, T)` is the delay-list
builder run on the explicit delay sequence `1, 2, …, D-1` with
`dims = (D-1, T)`: same code and same output buffer. -/
theorem claim_correlogram_refines_delay_list
    (sig : ℕ → ℝ) (wlen D T : ℕ) (cg : ℕ → ℝ) (hD : 1 ≤ D) :
    correlogram sig wlen (D, T) cg =
      correlogram_delay sig (fun i => i + 1) wlen (D - 1, T) cg :=
  correlogram_eq_correlogram_delay sig wlen D T cg

/-- Witness for C7 at `D = 2`, `T = 1` on the ramp signal. -/
theorem claim_correlogram_refines_delay_list_witness :
    correlogram rampSig 2 (2, 1) (fun _ => 0) =
      correlogram_delay rampSig (fun i => i + 1) 2 (2 - 1, 1) (fun _ => 0) :=
  claim_correlogram_refines_delay_list rampSig 2 2 1 (fun _ => 0)
    (by norm_num)

/-- Counterexample to C8 as stated: on the all-zero signal the
self-correlation at window length `1 > 0` is the sentinel `-2`, not `1`. -/
theorem claim_self_correlation_cex :
    (0:ℕ) < 1 ∧ corrcoef (fun _ => (0:ℝ)) 0 0 1 ≠ 1 := by
  refine ⟨Nat.one_pos, ?_⟩
  rw [corrcoef_zero_sig]
  norm_num

/-- C8 (amended): self-correlation yields exactly `1` for every window of
positive length whose variance-like term is nonzero (non-degenerate
window); a zero-variance window instead yields the sentinel. -/
theorem claim_self_correlation_amended
    (data : ℕ → ℝ) (off n : ℕ) (hn : 0 < n)
    (hv : s_sq data off n - ms data off n ≠ 0) :
    corrcoef data off off n = 1 :=
  corrcoef_self data off n hv

/-- Witness for the amended C8 at the ramp signal, offset 0, length 2. -/
theorem claim_self_correlation_amended_witness :
    (s_sq rampSig 0 2 - ms rampSig 0 2 ≠ 0) ∧ corrcoef rampSig 0 0 2 = 1 :=
  ⟨by rw [ramp_var0]; norm_num,
   claim_self_correlation_amended rampSig 0 2 (by norm_num)
     (by rw [ramp_var0]; norm_num)⟩

/-- C9: a window correlated against its exact pointwise negation yields
exactly `-1`, provided the first window has nonzero variance. -/
theorem claim_anti_correlation
    (data : ℕ → ℝ) (off_x off_y n : ℕ)
    (hneg : ∀ i < n, data (off_y + i) = -data (off_x + i))
    (hv : s_sq data off_x n - ms data off_x n ≠ 0) :
    corrcoef data off_x off_y n = -1 :=
  corrcoef_neg_window data off_x off_y n hneg hv

/-- Witness for C9 at the `0, 1, 0, -1` signal, offsets 0 and 2,
window length 2. -/
theorem claim_anti_correlation_witness :
    (∀ i < 2, antiSig (2 + i) = -antiSig (0 + i)) ∧
      corrcoef antiSig 0 2 2 = -1 := by
  have hneg : ∀ i < 2, antiSig (2 + i) = -antiSig (0 + i) := by
    intro i hi
    interval_cases i <;> norm_num [antiSig]
  exact ⟨hneg, claim_anti_correlation antiSig 0 2 2 hneg
    (by rw [anti_var0]; norm_num)⟩

/-- C10: with an empty delay set or an empty position set each builder
writes nothing and returns `1`: `correlogram_delay` when `dims.1 = 0` or
`dims.2 = 0`, and `correlogram` when `dims.1 ≤ 1` or `dims.2 = 0`. -/
theorem claim_vacuous_success_empty_dims
    (sig : ℕ → ℝ) (delays : ℕ → ℕ) (wlen d0 d1 D T : ℕ) (cg : ℕ → ℝ) :
    ((d0 = 0 ∨ d1 = 0) →
      correlogram_delay sig delays wlen (d0, d1) cg = (1, cg)) ∧
    ((D ≤ 1 ∨ T = 0) → correlogram sig wlen (D, T) cg = (1, cg)) :=
  ⟨fun h => correlogram_delay_vacuous sig delays wlen (d0, d1) cg h,
   fun h => correlogram_vacuous sig wlen (D, T) cg h⟩

/-- Witness for C10 at `dims = (0, 5)` for the delay-list builder and
`dims = (1, 5)` for the delay-range builder. -/
theorem claim_vacuous_success_empty_dims_witness :
    correlogram_delay (fun _ => (0:ℝ)) (fun _ => 0) 3 (0, 5) (fun _ => 0) =
      (1, fun _ => 0) ∧
    correlogram (fun _ => (0:ℝ)) 3 (1, 5) (fun _ => 0) = (1, fun _ => 0) :=
  ⟨(claim_vacuous_success_empty_dims (fun _ => (0:ℝ)) (fun _ => 0) 3 0 5 1 5
      (fun _ => 0)).1 (Or.inl rfl),
   (claim_vacuous_success_empty_dims (fun _ => (0:ℝ)) (fun _ => 0) 3 0 5 1 5
      (fun _ => 0)).2 (Or.inl (by norm_num))⟩

/-- C6: whenever a builder returns the success code `1`, every cell it
wrote lies in `[0, 1]`: each coefficient is in `[-1, 1]`, negatives are
zeroed, positives are raised to the fourth power. -/
theorem claim_cells_in_unit_interval
    (sig : ℕ → ℝ) (delays : ℕ → ℕ) (wlen d0 d1 D T : ℕ) (cg : ℕ → ℝ) :
    ((correlogram_delay sig delays wlen (d0, d1) cg).1 = 1 →
      ∀ i < d0, ∀ t < d1,
        0 ≤ (correlogram_delay sig delays wlen (d0, d1) cg).2
              (i * d1 + t) ∧
          (correlogram_delay sig delays wlen (d0, d1) cg).2
              (i * d1 + t) ≤ 1) ∧
    ((correlogram sig wlen (D, T) cg).1 = 1 →
      ∀ d, 1 ≤ d → d < D → ∀ t < T,
        0 ≤ (correlogram sig wlen (D, T) cg).2 ((d - 1) * T + t) ∧
          (correlogram sig wlen (D, T) cg).2 ((d - 1) * T + t) ≤ 1) := by
  constructor
  · intro h i hi t ht
    have hok : ∀ i' ∈ List.range d0, ∀ t' < d1,
        corrcoef sig t' (t' + delays i') wlen ≠ -2 :=
      (fillRows_code sig delays wlen d1 (List.range d0) cg).mp h
    have hval : (correlogram_delay sig delays wlen (d0, d1) cg).2
          (i * d1 + t) =
        transform (corrcoef sig t (t + delays i) wlen) :=
      fillRows_value sig delays wlen d1 (List.range d0) cg i t
        (List.mem_range.mpr hi) ht hok
    have hne := hok i (List.mem_range.mpr hi) t ht
    have hp : p_std sig t (t + delays i) wlen ≠ 0 := fun h0 =>
      hne (corrcoef_of_p_std_eq_zero sig t (t + delays i) wlen h0)
    have hb := corrcoef_bounds sig t (t + delays i) wlen hp
    rw [hval]
    exact transform_mem_unit _ hb.1 hb.2
  · intro h d h1 hD t ht
    rw [correlogram_eq_correlogram_delay] at h ⊢
    have hok : ∀ i' ∈ List.range (D - 1), ∀ t' < T,
        corrcoef sig t' (t' + (i' + 1)) wlen ≠ -2 :=
      (fillRows_code sig (fun i => i + 1) wlen T (List.range (D - 1))
        cg).mp h
    have hval : (correlogram_delay sig (fun i => i + 1) wlen (D - 1, T)
          cg).2 ((d - 1) * T + t) =
        transform (corrcoef sig t (t + (d - 1 + 1)) wlen) :=
      fillRows_value sig (fun i => i + 1) wlen T (List.range (D - 1)) cg
        (d - 1) t (List.mem_range.mpr (by omega)) ht hok
    have hne : corrcoef sig t (t + (d - 1 + 1)) wlen ≠ -2 :=
      hok (d - 1) (List.mem_range.mpr (by omega)) t ht
    have hd : d - 1 + 1 = d := by omega
    rw [hd] at hval hne
    have hp : p_std sig t (t + d) wlen ≠ 0 := fun h0 =>
      hne (corrcoef_of_p_std_eq_zero sig t (t + d) wlen h0)
    have hb := corrcoef_bounds sig t (t + d) wlen hp
    rw [hval]
    exact transform_mem_unit _ hb.1 hb.2

/-- One-cell delay-list run on the ramp that succeeds, used by the
witness of the unit-interval claim. -/
lemma ramp_run_delay_success :
    (correlogram_delay rampSig (fun _ => 1) 2 (1, 1) (fun _ => 0)).1 = 1 := by
  refine (fillRows_code rampSig (fun _ => 1) 2 1 (List.range 1)
    (fun _ => 0)).mpr ?_
  intro i _ t ht
  have ht0 : t = 0 := by omega
  subst ht0
  show corrcoef rampSig 0 1 2 ≠ -2
  rw [corrcoef_ramp]
  norm_num

/-- One-cell delay-range run on the ramp that succeeds, used by the
witness of the unit-interval claim. -/
lemma ramp_run_range_success :
    (correlogram rampSig 2 (2, 1) (fun _ => 0)).1 = 1 := by
  rw [correlogram_eq_correlogram_delay]
  refine (fillRows_code rampSig (fun i => i + 1) 2 1 (List.range (2 - 1))
    (fun _ => 0)).mpr ?_
  intro i hi t ht
  have hi0 : i = 0 := by
    have := List.mem_range.mp hi
    omega
  have ht0 : t = 0 := by omega
  subst hi0
  subst ht0
  show corrcoef rampSig 0 1 2 ≠ -2
  rw [corrcoef_ramp]
  norm_num

/-- Witness for C6 on the successful one-cell ramp runs. -/
theorem claim_cells_in_unit_interval_witness :
    (0 ≤ (correlogram_delay rampSig (fun _ => 1) 2 (1, 1) (fun _ => 0)).2
        (0 * 1 + 0) ∧
      (correlogram_delay rampSig (fun _ => 1) 2 (1, 1) (fun _ => 0)).2
        (0 * 1 + 0) ≤ 1) ∧
    (0 ≤ (correlogram rampSig 2 (2, 1) (fun _ => 0)).2 ((1 - 1) * 1 + 0) ∧
      (correlogram rampSig 2 (2, 1) (fun _ => 0)).2 ((1 - 1) * 1 + 0) ≤ 1) :=
  ⟨(claim_cells_in_unit_interval rampSig (fun _ => 1) 2 1 1 2 1
      (fun _ => 0)).1 ramp_run_delay_success 0 (by norm_num) 0 (by norm_num),
   (claim_cells_in_unit_interval rampSig (fun _ => 1) 2 1 1 2 1
      (fun _ => 0)).2 ramp_run_range_success 1 (by norm_num) (by norm_num)
      0 (by norm_num)⟩

/-- C4: for both builders, a cell returning the sentinel makes the builder
stop at that cell with code `0`, keeping every lexicographically earlier
cell's written value and touching nothing else; with no sentinel the
builder returns `1`. -/
theorem claim_builders_abort_on_first_sentinel
    (sig : ℕ → ℝ) (delays : ℕ → ℕ) (wlen d0 d1 D T : ℕ) (cg : ℕ → ℝ) :
    ((∀ i < d0, ∀ t < d1, corrcoef sig t (t + delays i) wlen ≠ -2) →
      (correlogram_delay sig delays wlen (d0, d1) cg).1 = 1) ∧
    (∀ i0 t0, i0 < d0 → t0 < d1 →
      corrcoef sig t0 (t0 + delays i0) wlen = -2 →
      (∀ i t, i < d0 → t < d1 → (i < i0 ∨ (i = i0 ∧ t < t0)) →
        corrcoef sig t (t + delays i) wlen ≠ -2) →
      (correlogram_delay sig delays wlen (d0, d1) cg).1 = 0 ∧
      (∀ i t, i < d0 → t < d1 → (i < i0 ∨ (i = i0 ∧ t < t0)) →
        (correlogram_delay sig delays wlen (d0, d1) cg).2 (i * d1 + t) =
          transform (corrcoef sig t (t + delays i) wlen)) ∧
      (∀ k, (∀ i t, i < d0 → t < d1 → (i < i0 ∨ (i = i0 ∧ t < t0)) →
          k ≠ i * d1 + t) →
        (correlogram_delay sig delays wlen (d0, d1) cg).2 k = cg k)) ∧
    ((∀ dl, 1 ≤ dl → dl < D → ∀ t < T, corrcoef sig t (t + dl) wlen ≠ -2) →
      (correlogram sig wlen (D, T) cg).1 = 1) ∧
    (∀ dl0 t0, 1 ≤ dl0 → dl0 < D → t0 < T →
      corrcoef sig t0 (t0 + dl0) wlen = -2 →
      (∀ dl t, 1 ≤ dl → dl < D → t < T → (dl < dl0 ∨ (dl = dl0 ∧ t < t0)) →
        corrcoef sig t (t + dl) wlen ≠ -2) →
      (correlogram sig wlen (D, T) cg).1 = 0 ∧
      (∀ dl t, 1 ≤ dl → dl < D → t < T → (dl < dl0 ∨ (dl = dl0 ∧ t < t0)) →
        (correlogram sig wlen (D, T) cg).2 ((dl - 1) * T + t) =
          transform (corrcoef sig t (t + dl) wlen)) ∧
      (∀ k, (∀ dl t, 1 ≤ dl → dl < D → t < T →
          (dl < dl0 ∨ (dl = dl0 ∧ t < t0)) → k ≠ (dl - 1) * T + t) →
        (correlogram sig wlen (D, T) cg).2 k = cg k)) := by
  refine ⟨?_, ?_, ?_, ?_⟩
  · intro h
    exact (fillRows_code sig delays wlen d1 (List.range d0) cg).mpr
      fun i hi t ht => h i (List.mem_range.mp hi) t ht
  · intro i0 t0 hi0 ht0 hfail hbefore
    exact correlogram_delay_abort sig delays wlen d0 d1 i0 t0 cg hi0 ht0
      hfail hbefore
  · intro h
    rw [correlogram_eq_correlogram_delay]
    refine (fillRows_code sig (fun i => i + 1) wlen T (List.range (D - 1))
      cg).mpr ?_
    intro i hi t ht
    have hiD : i < D - 1 := List.mem_range.mp hi
    exact h (i + 1) (by omega) (by omega) t ht
  · intro dl0 t0 h1 hD ht0 hfail hbefore
    rw [correlogram_eq_correlogram_delay]
    have hd0 : dl0 - 1 + 1 = dl0 := by omega
    have hfail' : corrcoef sig t0 (t0 + (dl0 - 1 + 1)) wlen = -2 := by
      rw [hd0]
      exact hfail
    have hbefore' : ∀ i t, i < D - 1 → t < T →
        (i < dl0 - 1 ∨ (i = dl0 - 1 ∧ t < t0)) →
        corrcoef sig t (t + (i + 1)) wlen ≠ -2 := by
      intro i t hi ht hlex
      refine hbefore (i + 1) t (by omega) (by omega) ht ?_
      rcases hlex with hlt | ⟨heq, hlt⟩
      · left
        omega
      · right
        exact ⟨by omega, hlt⟩
    have habort := correlogram_delay_abort sig (fun i => i + 1) wlen
      (D - 1) T (dl0 - 1) t0 cg (by omega) ht0 hfail' hbefore'
    refine ⟨habort.1, ?_, ?_⟩
    · intro dl t hl1 hlD ht hlex
      have hlex' : dl - 1 < dl0 - 1 ∨ (dl - 1 = dl0 - 1 ∧ t < t0) := by
        rcases hlex with hlt | ⟨heq, hlt⟩
        · left
          omega
        · right
          exact ⟨by omega, hlt⟩
      have hval : (correlogram_delay sig (fun i => i + 1) wlen (D - 1, T)
            cg).2 ((dl - 1) * T + t) =
          transform (corrcoef sig t (t + (dl - 1 + 1)) wlen) :=
        habort.2.1 (dl - 1) t (by omega) ht hlex'
      have hdl : dl - 1 + 1 = dl := by omega
      rw [hdl] at hval
      exact hval
    · intro k hk
      refine habort.2.2 k ?_
      intro i t hi ht hlex
      have hlex' : i + 1 < dl0 ∨ (i + 1 = dl0 ∧ t < t0) := by
        rcases hlex with hlt | ⟨heq, hlt⟩
        · left
          omega
        · right
          exact ⟨by omega, hlt⟩
      have hne := hk (i + 1) t (by omega) (by omega) ht hlex'
      have hii : i + 1 - 1 = i := by omega
      rw [hii] at hne
      exact hne

/-- Witness for C4: the all-zero signal makes the delay-list builder fail
at its very first cell, and a delay-range run with no delays succeeds. -/
theorem claim_builders_abort_on_first_sentinel_witness :
    (correlogram_delay (fun _ => (0:ℝ)) (fun _ => 0) 1 (1, 1)
      (fun _ => 0)).1 = 0 ∧
    (correlogram (fun _ => (0:ℝ)) 1 (1, 1) (fun _ => 0)).1 = 1 :=
  ⟨((claim_builders_abort_on_first_sentinel (fun _ => (0:ℝ)) (fun _ => 0)
      1 1 1 1 1 (fun _ => 0)).2.1 0 0 (by norm_num) (by norm_num)
      (corrcoef_zero_sig 0 0 1)
      (fun i t _ _ hlex => absurd hlex (by omega))).1,
   (claim_builders_abort_on_first_sentinel (fun _ => (0:ℝ)) (fun _ => 0)
      1 1 1 1 1 (fun _ => 0)).2.2.1
      (fun dl h1 hD _ _ => absurd (lt_of_le_of_lt h1 hD) (lt_irrefl 1))⟩

end

end Apollon
